import Mathlib

/-!
Verification of the data-cleaning and indicator pipeline of
`demo_dataset.py` (Apple stock data demo).

The script is a linear pandas pipeline over a daily OHLCV frame fetched
from yfinance.  We embed the frame as a list of rows; a cell is
`Option ℚ` where `none` stands for a pandas missing value (NaN).  The
yfinance history frame carries the columns Open, High, Low, Close,
Volume, Dividends and Stock Splits, indexed by Date; after
`reset_index` the Date becomes an ordinary column.  Dates are modelled
as natural-number day identifiers (the ISO string formatting at line 52
of the script does not affect any of the verified properties).

Pipeline steps embedded below, in the script's order:
  line 34  `data.drop_duplicates()`          — `drop_duplicates`
  line 37  `data.ffill()`                    — `ffill`
  lines 41–49 indicator columns              — `add_indicators`
  line 53  first CSV export                  — `export1`
  lines 56–58 negative-value warnings        — `warnings_of`
  lines 61–62 negatives → NaN                — `sanitize_negatives`
  line 63  `data.ffill()` (whole frame)      — `ffill2`
  line 65  `dropna(subset=derived)`          — `drop_incomplete`
  line 69  second CSV export                 — `export2`
  line 86  `data[abs(data:Return) > 0.10]`   — `outliers`
-/

/-- One raw row of the fetched history frame (yfinance `Ticker.history`):
index `Date` plus the columns Open, High, Low, Close, Volume, Dividends,
Stock Splits.  A cell is `none` when pandas holds NaN there. -/
structure Row where
  Date : ℕ
  Open : Option ℚ
  High : Option ℚ
  Low : Option ℚ
  Close : Option ℚ
  Volume : Option ℚ
  Dividends : Option ℚ
  StockSplits : Option ℚ
deriving DecidableEq

/-- A row after the indicator columns SMA_20, EMA_20, RSI_14, MACD and
Return have been added (lines 41–49 of the script). -/
structure FullRow where
  Date : ℕ
  Open : Option ℚ
  High : Option ℚ
  Low : Option ℚ
  Close : Option ℚ
  Volume : Option ℚ
  Dividends : Option ℚ
  StockSplits : Option ℚ
  SMA_20 : Option ℚ
  EMA_20 : Option ℚ
  RSI_14 : Option ℚ
  MACD : Option ℚ
  Return : Option ℚ
deriving DecidableEq

/-- Placeholder row used only as the default of `List.getD`. -/
def dummyFull : FullRow :=
  ⟨0, none, none, none, none, none, none, none, none, none, none, none, none⟩

/-- The tuple of column values `pandas.DataFrame.drop_duplicates` compares:
every column of the frame at line 34, i.e. everything except the Date
index (pandas ignores the index when looking for duplicate rows, and
treats NaN as equal to NaN, which `Option` equality reproduces). -/
def valKey (r : Row) :
    Option ℚ × Option ℚ × Option ℚ × Option ℚ × Option ℚ × Option ℚ × Option ℚ :=
  (r.Open, r.High, r.Low, r.Close, r.Volume, r.Dividends, r.StockSplits)

/-- Worker for `drop_duplicates`: keep a row when its column-value tuple
has not been seen on an earlier (kept or dropped) row. -/
def ddAux (seen : List (Option ℚ × Option ℚ × Option ℚ × Option ℚ ×
    Option ℚ × Option ℚ × Option ℚ)) : List Row → List Row
  | [] => []
  | r :: rs =>
      if valKey r ∈ seen then ddAux seen rs
      else r :: ddAux (valKey r :: seen) rs

/-- Line 34: `data = data.drop_duplicates()` — pandas keeps the first
occurrence of each duplicated row (default `keep='first'`), comparing
column values only, never the Date index. -/
def drop_duplicates (rows : List Row) : List Row := ddAux [] rows

/-- Forward-fill choice for one cell: keep the current value when
present, otherwise take the most recent earlier value of the column. -/
def fo (cur prev : Option ℚ) : Option ℚ :=
  match cur with
  | some v => some v
  | none => prev

/-- One column forward-filled (`Series.ffill`), carrying the last
non-missing value seen so far (`last`). -/
def ffillCol (last : Option ℚ) : List (Option ℚ) → List (Option ℚ)
  | [] => []
  | x :: xs =>
      match x with
      | some v => some v :: ffillCol (some v) xs
      | none => last :: ffillCol last xs

/-- One step of the row-level forward fill of the raw frame: each column
independently keeps its value or inherits the carried one. -/
def fStep (prev cur : Row) : Row :=
  { Date := cur.Date
    Open := fo cur.Open prev.Open
    High := fo cur.High prev.High
    Low := fo cur.Low prev.Low
    Close := fo cur.Close prev.Close
    Volume := fo cur.Volume prev.Volume
    Dividends := fo cur.Dividends prev.Dividends
    StockSplits := fo cur.StockSplits prev.StockSplits }

/-- Worker for line 37's `data.ffill()`, threading the row of last seen
values. -/
def ffillAux (prev : Row) : List Row → List Row
  | [] => []
  | r :: rs => fStep prev r :: ffillAux (fStep prev r) rs

/-- Line 37: `data = data.ffill()` — every column of the raw frame is
forward-filled from the most recent non-missing value above it. -/
def ffill (rows : List Row) : List Row :=
  ffillAux ⟨0, none, none, none, none, none, none, none⟩ rows

/-! ## Indicator columns (lines 41–49)

The five derived columns are computed from the `Close` column only.
`ta.trend.sma_indicator(close, 20)` is
`close.rolling(20, min_periods=20).mean()`;
`ta.trend.ema_indicator(close, 20)` is
`close.ewm(span=20, min_periods=20, adjust=False).mean()`;
`ta.momentum.rsi(close, 14)` smooths the up/down moves with
`ewm(alpha=1/14, min_periods=14, adjust=False)`;
`ta.trend.macd(close)` is `ema_12 - ema_26`; and
`close.pct_change()` pads missing closes forward and divides consecutive
values. -/

/-- `Series.rolling(w, min_periods=w).mean()`: position `i` holds the
mean of the window `xs[i-w+1..i]` when the window is full (`w ≤ i+1`)
and every cell in it is non-missing; otherwise NaN (with
`min_periods = w`, one missing cell in the window leaves fewer than `w`
observations). -/
def rollingMean (w : ℕ) (xs : List (Option ℚ)) : List (Option ℚ) :=
  (List.range xs.length).map (fun i =>
    if i + 1 < w then none
    else
      let win := (List.range w).map (fun k => xs.getD (i - k) none)
      if win.all Option.isSome then some ((win.filterMap id).sum / w)
      else none)

/-- `ta.trend.sma_indicator(close, window=20)` (line 41). -/
def sma_indicator (w : ℕ) (xs : List (Option ℚ)) : List (Option ℚ) :=
  rollingMean w xs

/-- One pass of pandas `Series.ewm(..., adjust=False, ignore_na=False)
.mean()`, following the recurrence implemented in pandas' `ewma`
aggregation: `wavg` is the running weighted average (NaN before the
first observation), `oldWt` the decayed weight of `wavg` (reset to 1
after each observation, multiplied by `1-α` when a NaN is passed over),
and `nobs` the number of observations so far; the output is NaN until
`minp` (`min_periods`) observations have been seen. -/
def ewmGo (al : ℚ) (minp : ℕ) (wavg : Option ℚ) (oldWt : ℚ) (nobs : ℕ) :
    List (Option ℚ) → List (Option ℚ)
  | [] => []
  | x :: xs =>
      match wavg, x with
      | some w, some v =>
          let ow := oldWt * (1 - al)
          let w2 := (ow * w + al * v) / (ow + al)
          (if minp ≤ nobs + 1 then some w2 else none) ::
            ewmGo al minp (some w2) 1 (nobs + 1) xs
      | some w, none =>
          (if minp ≤ nobs then some w else none) ::
            ewmGo al minp (some w) (oldWt * (1 - al)) nobs xs
      | none, some v =>
          (if minp ≤ nobs + 1 then some v else none) ::
            ewmGo al minp (some v) 1 (nobs + 1) xs
      | none, none => none :: ewmGo al minp none oldWt nobs xs

/-- `Series.ewm(alpha=al, min_periods=minp, adjust=False).mean()`. -/
def ewma (al : ℚ) (minp : ℕ) (xs : List (Option ℚ)) : List (Option ℚ) :=
  ewmGo al minp none 1 0 xs

/-- `ta.trend.ema_indicator(close, window=w)`:
`close.ewm(span=w, min_periods=w, adjust=False).mean()`, with
`α = 2/(w+1)` (line 42, `w = 20`). -/
def ema_indicator (w : ℕ) (xs : List (Option ℚ)) : List (Option ℚ) :=
  ewma (2 / (w + 1)) w xs

/-- `Series.diff(1)`: difference with the previous cell, NaN on the
first row or when either cell is missing. -/
def diff1 (xs : List (Option ℚ)) : List (Option ℚ) :=
  (List.range xs.length).map (fun i =>
    if i = 0 then none
    else
      match xs.getD (i - 1) none, xs.getD i none with
      | some a, some b => some (b - a)
      | _, _ => none)

/-- Upward move of `rsi`: `diff.where(diff > 0, 0.0)` — a NaN or
non-positive difference becomes `0`, so the smoothed series never sees a
missing value. -/
def upMove (d : Option ℚ) : ℚ :=
  match d with
  | some q => if 0 < q then q else 0
  | none => 0

/-- Downward move of `rsi`: `-diff.where(diff < 0, -0.0)`. -/
def downMove (d : Option ℚ) : ℚ :=
  match d with
  | some q => if q < 0 then -q else 0
  | none => 0

/-- `ta.momentum.rsi(close, window=14)` (line 45): the up and down moves
are smoothed with `ewm(alpha=1/14, min_periods=14, adjust=False)` and
combined as `100 - 100/(1 + emaup/emadn)`.  Under float semantics a zero
`emadn` makes the quotient `+∞` (value 100) when `emaup > 0` and NaN
when `emaup = 0`; both cases are spelled out here. -/
def rsi (w : ℕ) (xs : List (Option ℚ)) : List (Option ℚ) :=
  let d := diff1 xs
  let emaup := ewma (1 / w) w (d.map (fun o => some (upMove o)))
  let emadn := ewma (1 / w) w (d.map (fun o => some (downMove o)))
  List.zipWith (fun u? d? =>
    match u?, d? with
    | some u, some dn =>
        if dn = 0 then (if u = 0 then none else some 100)
        else some (100 - 100 / (1 + u / dn))
    | _, _ => none) emaup emadn

/-- `ta.trend.macd(close)` (line 46): fast EMA (span 12) minus slow EMA
(span 26), NaN where either is NaN (the slow one, with
`min_periods = 26`, dominates). -/
def macd (xs : List (Option ℚ)) : List (Option ℚ) :=
  List.zipWith (fun a? b? =>
    match a?, b? with
    | some a, some b => some (a - b)
    | _, _ => none) (ema_indicator 12 xs) (ema_indicator 26 xs)

/-- `Series.pct_change()` (line 49): pandas first pads missing values
forward (default `fill_method`), then computes `x[i]/x[i-1] - 1`; the
first row is NaN.  A zero previous close gives a float division by
zero — NaN for `0/0`, ±∞ for a nonzero numerator; both non-rational
results are modelled as a missing cell here (the verified claims never
depend on an infinite return). -/
def pct_change (xs : List (Option ℚ)) : List (Option ℚ) :=
  let f := ffillCol none xs
  (List.range f.length).map (fun i =>
    if i = 0 then none
    else
      match f.getD (i - 1) none, f.getD i none with
      | some a, some b => if a = 0 then none else some (b / a - 1)
      | _, _ => none)

/-- Lines 41–49: attach the five derived columns, each computed from the
`Close` column of the (deduplicated, forward-filled) frame. -/
def add_indicators (rows : List Row) : List FullRow :=
  let c := rows.map Row.Close
  let smaL := sma_indicator 20 c
  let emaL := ema_indicator 20 c
  let rsiL := rsi 14 c
  let macdL := macd c
  let retL := pct_change c
  (List.range rows.length).map (fun i =>
    let r := (rows.getD i ⟨0, none, none, none, none, none, none, none⟩)
    { Date := r.Date
      Open := r.Open
      High := r.High
      Low := r.Low
      Close := r.Close
      Volume := r.Volume
      Dividends := r.Dividends
      StockSplits := r.StockSplits
      SMA_20 := smaL.getD i none
      EMA_20 := emaL.getD i none
      RSI_14 := rsiL.getD i none
      MACD := macdL.getD i none
      Return := retL.getD i none })

/-- The frame exported to `apple_curated_dataset.csv` at line 53: raw
frame deduplicated (line 34), forward-filled (line 37), with the
indicator columns added (lines 41–49).  The `reset_index` / `strftime`
at lines 51–52 only reformats the Date column and is the identity in
this model. -/
def export1 (raw : List Row) : List FullRow :=
  add_indicators (ffill (drop_duplicates raw))

/-! ## Cleaning steps after the first export (lines 55–69) -/

/-- Clamp of lines 61–62: `x if x >= 0 else None` applied per cell — a
negative value becomes NaN, a NaN stays NaN (in Python, `NaN >= 0` is
false so NaN also maps to `None`), a non-negative value is kept. -/
def clampNeg (o : Option ℚ) : Option ℚ :=
  match o with
  | some q => if 0 ≤ q then some q else none
  | none => none

/-- Lines 61–62: the loop over `numeric_cols = [Open, High, Low, Close,
Volume]` replacing negative values with NaN.  The derived columns and
Dividends / Stock Splits are untouched. -/
def sanitize_negatives (rows : List FullRow) : List FullRow :=
  rows.map (fun r =>
    { r with
      Open := clampNeg r.Open
      High := clampNeg r.High
      Low := clampNeg r.Low
      Close := clampNeg r.Close
      Volume := clampNeg r.Volume })

/-- One step of line 63's whole-frame `ffill`: every `Option` column of
the enriched frame — the OHLCV columns, Dividends, Stock Splits and all
five derived columns — keeps its value or inherits the carried one.
The Date column is a (never-missing) string at this point and is
unchanged. -/
def fStep2 (prev cur : FullRow) : FullRow :=
  { Date := cur.Date
    Open := fo cur.Open prev.Open
    High := fo cur.High prev.High
    Low := fo cur.Low prev.Low
    Close := fo cur.Close prev.Close
    Volume := fo cur.Volume prev.Volume
    Dividends := fo cur.Dividends prev.Dividends
    StockSplits := fo cur.StockSplits prev.StockSplits
    SMA_20 := fo cur.SMA_20 prev.SMA_20
    EMA_20 := fo cur.EMA_20 prev.EMA_20
    RSI_14 := fo cur.RSI_14 prev.RSI_14
    MACD := fo cur.MACD prev.MACD
    Return := fo cur.Return prev.Return }

/-- Worker for line 63's `data.ffill()` on the enriched frame. -/
def ffill2Aux (prev : FullRow) : List FullRow → List FullRow
  | [] => []
  | r :: rs => fStep2 prev r :: ffill2Aux (fStep2 prev r) rs

/-- Line 63: `data = data.ffill()` — reapplied to the whole frame after
the negative values were replaced by NaN. -/
def ffill2 (rows : List FullRow) : List FullRow :=
  ffill2Aux dummyFull rows

/-- Whether a row survives line 65's
`dropna(subset=['SMA_20','EMA_20','RSI_14','MACD','Return'])`:
all five derived cells are non-missing. -/
def completeRow (r : FullRow) : Bool :=
  r.SMA_20.isSome && r.EMA_20.isSome && r.RSI_14.isSome &&
    r.MACD.isSome && r.Return.isSome

/-- Line 65: drop every row missing at least one derived value. -/
def drop_incomplete (rows : List FullRow) : List FullRow :=
  rows.filter completeRow

/-- The frame exported to `apple_curated_dataset_clean.csv` at line 69:
the first-export frame after the negative-value substitution (61–62),
the renewed whole-frame forward fill (63) and the incomplete-row drop
(65).  The warning loop of lines 56–58 only prints and changes nothing. -/
def export2 (raw : List Row) : List FullRow :=
  drop_incomplete (ffill2 (sanitize_negatives (export1 raw)))

/-- The `numeric_cols` list of line 55, each name paired with the
accessor of its column. -/
def numeric_cols : List (String × (FullRow → Option ℚ)) :=
  [("Open", FullRow.Open), ("High", FullRow.High), ("Low", FullRow.Low),
   ("Close", FullRow.Close), ("Volume", FullRow.Volume)]

/-- Whether one cell triggers the `(data[col] < 0)` test of line 57: a
missing cell compares false. -/
def negCell (o : Option ℚ) : Bool :=
  match o with
  | some q => decide (q < 0)
  | none => false

/-- Lines 56–58: the names of the numeric columns for which a
`Warning: Negative values found in {col}` line is printed — exactly
those with at least one negative cell.  Printing is the loop's only
effect; the frame is not modified. -/
def warnings_of (rows : List FullRow) : List String :=
  (numeric_cols.filter (fun p => rows.any (fun r => negCell (p.2 r)))).map
    (fun p => p.1)

/-- Line 86: `outliers = data[abs(data['Return']) > 0.10]` — the rows of
the cleaned frame whose absolute daily return exceeds the 10% threshold
(a missing Return compares false, as NaN does in pandas). -/
def outliers (rows : List FullRow) : List FullRow :=
  rows.filter (fun r =>
    match r.Return with
    | some q => decide ((1 : ℚ) / 10 < |q|)
    | none => false)

/-! ## A concrete test frame

29 trading days with distinct volumes (so no row duplicates another),
one negative Low on day 5, a close that alternates 10/11 for days 0–24,
drops to 5 on day 25 and sits at 0 from day 26 on.  It exercises the
negative-value warning and substitution, the warm-up drop, the outlier
filter, and the 0/0 daily return on days 27–28. -/

/-- Day `j` of the test frame. -/
def sampleRow (j : ℕ) : Row :=
  { Date := j
    Open := some 10
    High := some 12
    Low := if j = 5 then some (-5) else some 9
    Close :=
      if j ≤ 24 then some ((10 + j % 2 : ℕ) : ℚ)
      else if j = 25 then some 5 else some 0
    Volume := some ((1000 + j : ℕ) : ℚ)
    Dividends := some 0
    StockSplits := some 0 }

/-- The 29-day test frame. -/
def sample : List Row := (List.range 29).map sampleRow

/-- Placeholder raw row used only as the default of `List.getD`. -/
def dummyRow : Row := ⟨0, none, none, none, none, none, none, none⟩

/-- Two-row frame with one date occurring twice but different Close
values: pandas `drop_duplicates` keeps both rows. -/
def exSameDate : List Row :=
  [⟨0, some 1, some 2, some 1, some 3, some 50, some 0, some 0⟩,
   ⟨0, some 1, some 2, some 1, some 4, some 50, some 0, some 0⟩]

/-- Two-row frame with distinct dates but identical column values:
pandas `drop_duplicates` removes the second row. -/
def exSameVals : List Row :=
  [⟨0, some 1, some 2, some 1, some 3, some 50, some 0, some 0⟩,
   ⟨1, some 1, some 2, some 1, some 3, some 50, some 0, some 0⟩]

/-- Two-row frame with one date occurring twice but different Open
values, for the date-deduplication counterexample. -/
def exDupDate : List Row :=
  [⟨0, some 5, some 6, some 4, some 5, some 70, some 0, some 0⟩,
   ⟨0, some 9, some 6, some 4, some 5, some 70, some 0, some 0⟩]

/-! ## Lemmas about `drop_duplicates` -/

theorem ddAux_sublist (rows : List Row) : ∀ seen, (ddAux seen rows).Sublist rows := by
  induction rows with
  | nil => intro seen; simp [ddAux]
  | cons r rs ih =>
      intro seen
      by_cases h : valKey r ∈ seen
      · simp only [ddAux, if_pos h]
        exact (ih seen).cons r
      · simp only [ddAux, if_neg h]
        exact (ih (valKey r :: seen)).cons₂ r

theorem ddAux_keys_fresh (rows : List Row) :
    ∀ seen k, k ∈ (ddAux seen rows).map valKey → k ∉ seen := by
  induction rows with
  | nil => intro seen k hk; simp [ddAux] at hk
  | cons r rs ih =>
      intro seen k hk
      by_cases h : valKey r ∈ seen
      · simp only [ddAux, if_pos h] at hk
        exact ih seen k hk
      · simp only [ddAux, if_neg h, List.map_cons, List.mem_cons] at hk
        rcases hk with rfl | hk
        · exact h
        · have := ih (valKey r :: seen) k hk
          exact fun hs => this (List.mem_cons_of_mem _ hs)

theorem ddAux_keys_nodup (rows : List Row) :
    ∀ seen, ((ddAux seen rows).map valKey).Nodup := by
  induction rows with
  | nil => intro seen; simp [ddAux]
  | cons r rs ih =>
      intro seen
      by_cases h : valKey r ∈ seen
      · simp only [ddAux, if_pos h]; exact ih seen
      · simp only [ddAux, if_neg h, List.map_cons, List.nodup_cons]
        refine ⟨fun hmem => ?_, ih (valKey r :: seen)⟩
        exact ddAux_keys_fresh rs (valKey r :: seen) (valKey r) hmem
          (List.mem_cons_self _ _)

theorem ddAux_covers (rows : List Row) :
    ∀ seen r, r ∈ rows →
      valKey r ∈ seen ∨ valKey r ∈ (ddAux seen rows).map valKey := by
  induction rows with
  | nil => intro seen r hr; simp at hr
  | cons r0 rs ih =>
      intro seen r hr
      rcases List.mem_cons.mp hr with rfl | hr
      · by_cases h : valKey r ∈ seen
        · exact Or.inl h
        · right; simp only [ddAux, if_neg h, List.map_cons]
          exact List.mem_cons_self _ _
      · by_cases h : valKey r0 ∈ seen
        · simpa only [ddAux, if_pos h] using ih seen r hr
        · simp only [ddAux, if_neg h, List.map_cons]
          rcases ih (valKey r0 :: seen) r hr with hs | hd
          · rcases List.mem_cons.mp hs with he | hs
            · exact Or.inr (he ▸ List.mem_cons_self _ _)
            · exact Or.inl hs
          · exact Or.inr (List.mem_cons_of_mem _ hd)

theorem ddAux_keeps_first (rows : List Row) :
    ∀ seen i, (hi : i < rows.length) →
      (∀ j, j < i → valKey (rows.getD j dummyRow) ≠ valKey (rows.getD i dummyRow)) →
      valKey (rows.getD i dummyRow) ∉ seen →
      rows.getD i dummyRow ∈ ddAux seen rows := by
  induction rows with
  | nil => intro seen i hi; simp at hi
  | cons r0 rs ih =>
      intro seen i hi hfirst hseen
      cases i with
      | zero =>
          simp only [List.getD_cons_zero] at hseen ⊢
          simp only [ddAux, if_neg hseen]
          exact List.mem_cons_self _ _
      | succ j =>
          simp only [List.getD_cons_succ] at hfirst hseen ⊢
          by_cases h : valKey r0 ∈ seen
          · simp only [ddAux, if_pos h]
            refine ih seen j (by simpa using hi) ?_ hseen
            intro j2 hj2
            have := hfirst (j2 + 1) (by omega)
            simpa only [List.getD_cons_succ] using this
          · simp only [ddAux, if_neg h]
            refine List.mem_cons_of_mem _ ?_
            refine ih (valKey r0 :: seen) j (by simpa using hi) ?_ ?_
            · intro j2 hj2
              have := hfirst (j2 + 1) (by omega)
              simpa only [List.getD_cons_succ] using this
            · intro hmem
              rcases List.mem_cons.mp hmem with he | hs
              · have := hfirst 0 (by omega)
                simp only [List.getD_cons_zero] at this
                exact this he.symm
              · exact hseen hs

theorem ddAux_idem (rows : List Row) :
    ∀ seen, ddAux seen (ddAux seen rows) = ddAux seen rows := by
  induction rows with
  | nil => intro seen; simp [ddAux]
  | cons r rs ih =>
      intro seen
      by_cases h : valKey r ∈ seen
      · simp only [ddAux, if_pos h]; exact ih seen
      · simp only [ddAux, if_neg h]
        rw [ih (valKey r :: seen)]

/-- C1 counterexample: on a frame with two rows sharing date 0 but
differing in Open, line 34's `drop_duplicates` removes nothing, so a row
whose date is identical to an earlier row's date survives and the
cleaned series still contains a duplicate date. -/
theorem dedup_date_claim_false :
    drop_duplicates exDupDate = exDupDate ∧ exDupDate.map Row.Date = [0, 0] := by
  constructor
  · with_unfolding_all rfl
  · with_unfolding_all rfl

/-- C1 (amended): line 34's `drop_duplicates` removes exactly the rows
whose whole column-value tuple (Open, High, Low, Close, Volume,
Dividends, Stock Splits) is identical to that of an earlier row, keeping
the first occurrence of each value tuple; the date index plays no role.
Formally: the result is a sublist of the input, its value tuples are
pairwise distinct, every input row's value tuple is still represented,
and every row that is the first occurrence of its value tuple is kept. -/
theorem dedup_keeps_first_by_value (rows : List Row) :
    (drop_duplicates rows).Sublist rows ∧
    ((drop_duplicates rows).map valKey).Nodup ∧
    (∀ r ∈ rows, valKey r ∈ (drop_duplicates rows).map valKey) ∧
    (∀ i, i < rows.length →
      (∀ j, j < i → valKey (rows.getD j dummyRow) ≠ valKey (rows.getD i dummyRow)) →
      rows.getD i dummyRow ∈ drop_duplicates rows) := by
  refine ⟨ddAux_sublist rows [], ddAux_keys_nodup rows [], ?_, ?_⟩
  · intro r hr
    rcases ddAux_covers rows [] r hr with h | h
    · simp at h
    · exact h
  · intro i hi hfirst
    exact ddAux_keeps_first rows [] i hi hfirst (by simp)

/-- C1 amended-claim witness: on `exSameVals` the first row (index 0) is
kept by `drop_duplicates`. -/
theorem dedup_keeps_first_by_value_witness :
    exSameVals.getD 0 dummyRow ∈ drop_duplicates exSameVals := by
  refine (dedup_keeps_first_by_value exSameVals).2.2.2 0 (by decide) ?_
  intro j hj
  exact absurd hj (Nat.not_lt_zero j)

/-- C7: applying line 34's `drop_duplicates` twice yields the same frame
as applying it once. -/
theorem dedup_idempotent (rows : List Row) :
    drop_duplicates (drop_duplicates rows) = drop_duplicates rows :=
  ddAux_idem rows []

/-- C8: the deduplication at line 34 compares only the data-column
values and ignores the date index: on `exSameVals` (distinct dates,
identical values) the later row is removed, while on `exSameDate` (equal
dates, different Close) both rows are retained. -/
theorem dedup_ignores_date :
    drop_duplicates exSameVals = [exSameVals.getD 0 dummyRow] ∧
    (exSameVals.getD 0 dummyRow).Date ≠ (exSameVals.getD 1 dummyRow).Date ∧
    valKey (exSameVals.getD 0 dummyRow) = valKey (exSameVals.getD 1 dummyRow) ∧
    drop_duplicates exSameDate = exSameDate ∧
    (exSameDate.getD 0 dummyRow).Date = (exSameDate.getD 1 dummyRow).Date ∧
    valKey (exSameDate.getD 0 dummyRow) ≠ valKey (exSameDate.getD 1 dummyRow) := by
  refine ⟨?_, ?_, ?_, ?_, ?_, ?_⟩
  · with_unfolding_all rfl
  · intro h
    simp [exSameVals, List.getD_cons_zero, List.getD_cons_succ] at h
  · with_unfolding_all rfl
  · with_unfolding_all rfl
  · with_unfolding_all rfl
  · intro h
    simp [exSameDate, valKey, List.getD_cons_zero, List.getD_cons_succ] at h

/-! ## Generic index / membership helpers -/

theorem getD_mem {α : Type _} (l : List α) (i : ℕ) (d : α) (h : i < l.length) :
    l.getD i d ∈ l := by
  rw [List.getD_eq_getElem?_getD, List.getElem?_eq_getElem h]
  simp only [Option.getD_some]
  exact List.getElem_mem h

/-- C3: every row of the cleaned export (after line 65's
`dropna(subset=['SMA_20','EMA_20','RSI_14','MACD','Return'])`) carries
all five derived values; none of them is missing. -/
theorem drop_incomplete_complete (raw : List Row) (r : FullRow)
    (hr : r ∈ export2 raw) :
    (∃ q, r.SMA_20 = some q) ∧ (∃ q, r.EMA_20 = some q) ∧
    (∃ q, r.RSI_14 = some q) ∧ (∃ q, r.MACD = some q) ∧
    (∃ q, r.Return = some q) := by
  have h := (List.mem_filter.mp hr).2
  simp only [completeRow, Bool.and_eq_true, Option.isSome_iff_exists] at h
  tauto

set_option maxRecDepth 400000 in
/-- C3 witness: the first row of the cleaned export of the test frame. -/
theorem drop_incomplete_complete_witness :
    (∃ q, ((export2 sample).getD 0 dummyFull).SMA_20 = some q) ∧
    (∃ q, ((export2 sample).getD 0 dummyFull).EMA_20 = some q) ∧
    (∃ q, ((export2 sample).getD 0 dummyFull).RSI_14 = some q) ∧
    (∃ q, ((export2 sample).getD 0 dummyFull).MACD = some q) ∧
    (∃ q, ((export2 sample).getD 0 dummyFull).Return = some q) :=
  drop_incomplete_complete sample ((export2 sample).getD 0 dummyFull)
    (getD_mem (export2 sample) 0 dummyFull
      (by have h : (export2 sample).length = 4 := by with_unfolding_all rfl
          omega))

/-- C4: line 86's `outliers` frame holds exactly the rows of the cleaned
frame whose daily return exceeds 10% in absolute value; in particular a
cleaned row whose Return is 0.15 is in it.  (The Return column holds
`pct_change` of Close, so a day with `(close_i - close_im1)/close_im1 =
0.15` carries `Return = some (3/20)`.) -/
theorem outliers_characterization (raw : List Row) (r : FullRow) :
    (r ∈ outliers (export2 raw) ↔
      r ∈ export2 raw ∧ ∃ q, r.Return = some q ∧ (1 : ℚ) / 10 < |q|) ∧
    (r ∈ export2 raw → r.Return = some (3 / 20) → r ∈ outliers (export2 raw)) := by
  have main : r ∈ outliers (export2 raw) ↔
      r ∈ export2 raw ∧ ∃ q, r.Return = some q ∧ (1 : ℚ) / 10 < |q| := by
    rw [outliers, List.mem_filter]
    refine and_congr_right fun _ => ?_
    cases hR : r.Return with
    | none => simp [hR]
    | some q => simp [hR, decide_eq_true_eq]
  refine ⟨main, fun h1 h2 => main.mpr ⟨h1, 3 / 20, h2, ?_⟩⟩
  rw [abs_of_pos (by norm_num : (0 : ℚ) < 3 / 20)]
  norm_num

set_option maxRecDepth 400000 in
/-- C4 witness: on the test frame, the first cleaned row (daily return
−1/2) is an outlier. -/
theorem outliers_characterization_witness :
    (export2 sample).getD 0 dummyFull ∈ outliers (export2 sample) :=
  (outliers_characterization sample ((export2 sample).getD 0 dummyFull)).1.mpr
    ⟨getD_mem (export2 sample) 0 dummyFull
        (by have h : (export2 sample).length = 4 := by with_unfolding_all rfl
            omega),
      -1 / 2, by with_unfolding_all rfl, by
        rw [abs_of_neg (by norm_num : (-1 : ℚ) / 2 < 0)]; norm_num⟩

/-! ## The negative-value warnings (lines 56–58) -/

theorem mem_warnings (rows : List FullRow) (nm : String) :
    nm ∈ warnings_of rows ↔
      ∃ pr ∈ numeric_cols, pr.1 = nm ∧ ∃ r ∈ rows, negCell (pr.2 r) = true := by
  unfold warnings_of
  rw [List.mem_map]
  constructor
  · rintro ⟨a, haf, ha1⟩
    obtain ⟨ham, hap⟩ := List.mem_filter.mp haf
    exact ⟨a, ham, ha1, List.any_eq_true.mp hap⟩
  · rintro ⟨a, ham, ha1, hex⟩
    exact ⟨a, List.mem_filter.mpr ⟨ham, List.any_eq_true.mpr hex⟩, ha1⟩

/-- C5: for each of the five numeric columns of line 55, its name is
printed as a negative-value warning by the loop of lines 56–58 exactly
when the column holds at least one negative value in the frame being
checked (the first-export frame).  The loop only prints: in the script
the cleaning of lines 61–69 runs identically afterwards, which the model
reflects by `export2` not depending on `warnings_of`. -/
theorem warnings_iff_negative (raw : List Row)
    (p : String × (FullRow → Option ℚ)) (hp : p ∈ numeric_cols) :
    p.1 ∈ warnings_of (export1 raw) ↔
      ∃ r ∈ export1 raw, ∃ q, p.2 r = some q ∧ q < 0 := by
  rw [mem_warnings]
  constructor
  · rintro ⟨a, ham, ha1, r, hr, hneg⟩
    have hap : a = p := by
      simp only [numeric_cols, List.mem_cons, List.not_mem_nil, or_false] at ham hp
      rcases hp with rfl | rfl | rfl | rfl | rfl <;>
        rcases ham with rfl | rfl | rfl | rfl | rfl <;>
          first
            | rfl
            | exact absurd ha1 (by decide)
    subst hap
    refine ⟨r, hr, ?_⟩
    cases hc : a.2 r with
    | none => rw [hc] at hneg; simp [negCell] at hneg
    | some q =>
        rw [hc] at hneg
        simp only [negCell, decide_eq_true_eq] at hneg
        exact ⟨q, rfl, hneg⟩
  · rintro ⟨r, hr, q, hq, hneg⟩
    refine ⟨p, hp, rfl, r, hr, ?_⟩
    rw [hq]
    simpa [negCell] using hneg

set_option maxRecDepth 400000 in
/-- C5 witness: on the test frame (one negative Low on day 5) the Low
column is warned about, matching its negative cell. -/
theorem warnings_iff_negative_witness :
    ("Low" ∈ warnings_of (export1 sample) ↔
      ∃ r ∈ export1 sample, ∃ q, FullRow.Low r = some q ∧ q < 0) :=
  warnings_iff_negative sample ("Low", FullRow.Low) (by simp [numeric_cols])

/-! ## Lemmas about the sanitize + refill step (lines 61–63) -/

theorem ffill2Aux_length (rows : List FullRow) :
    ∀ prev, (ffill2Aux prev rows).length = rows.length := by
  induction rows with
  | nil => intro prev; rfl
  | cons r rs ih => intro prev; simp [ffill2Aux, ih]

theorem ffill2Aux_map (g : FullRow → Option ℚ)
    (hg : ∀ prev cur, g (fStep2 prev cur) = fo (g cur) (g prev))
    (rows : List FullRow) :
    ∀ prev, (ffill2Aux prev rows).map g = ffillCol (g prev) (rows.map g) := by
  induction rows with
  | nil => intro prev; rfl
  | cons r rs ih =>
      intro prev
      simp only [ffill2Aux, List.map_cons, ih (fStep2 prev r), hg prev r]
      cases hr : g r with
      | some v => simp [ffillCol, fo, hr]
      | none => simp [ffillCol, fo, hr]

theorem ffillCol_getD (xs : List (Option ℚ)) :
    ∀ last i, i < xs.length →
      (ffillCol last xs).getD i none =
        (xs.take (i + 1)).foldl (fun a x => fo x a) last := by
  induction xs with
  | nil => intro last i hi; simp at hi
  | cons x xs ih =>
      intro last i hi
      cases i with
      | zero =>
          cases x with
          | some v => simp [ffillCol, fo]
          | none => simp [ffillCol, fo]
      | succ j =>
          have hj : j < xs.length := by simpa using hi
          cases x with
          | some v =>
              simpa [ffillCol, fo, List.take_succ_cons] using ih (some v) j hj
          | none =>
              simpa [ffillCol, fo, List.take_succ_cons] using ih last j hj

theorem foldl_fo_good (l : List (Option ℚ)) :
    ∀ init : Option ℚ, (∀ x ∈ l, ∀ q, x = some q → 0 ≤ q) →
      (∀ q, init = some q → 0 ≤ q) →
      ∀ q, l.foldl (fun a x => fo x a) init = some q → 0 ≤ q := by
  induction l with
  | nil => intro init hl hinit q hq; exact hinit q hq
  | cons x l ih =>
      intro init hl hinit q hq
      simp only [List.foldl_cons] at hq
      refine ih (fo x init) (fun y hy => hl y (List.mem_cons_of_mem _ hy)) ?_ q hq
      intro q2 hq2
      cases hx : x with
      | some v =>
          rw [hx] at hq2
          simp only [fo] at hq2
          exact hl x (List.mem_cons_self _ _) q2 (by rw [hx, hq2])
      | none =>
          rw [hx] at hq2
          simp only [fo] at hq2
          exact hinit q2 hq2

theorem foldl_fo_none (l : List (Option ℚ)) :
    ∀ init, l.foldl (fun a x => fo x a) init = none →
      init = none ∧ ∀ x ∈ l, x = none := by
  induction l with
  | nil => intro init h; exact ⟨h, by simp⟩
  | cons x l ih =>
      intro init h
      simp only [List.foldl_cons] at h
      obtain ⟨hfo, hl⟩ := ih (fo x init) h
      cases hx : x with
      | some v => rw [hx] at hfo; simp [fo] at hfo
      | none =>
          rw [hx] at hfo
          simp only [fo] at hfo
          exact ⟨hfo, fun y hy => by
            rcases List.mem_cons.mp hy with rfl | hy
            · rfl
            · exact hl y hy⟩

theorem map_getD_full (g : FullRow → Option ℚ) (rows : List FullRow) (i : ℕ)
    (h : i < rows.length) :
    (rows.map g).getD i none = g (rows.getD i dummyFull) := by
  rw [List.getD_eq_getElem?_getD, List.getElem?_map, List.getElem?_eq_getElem h,
    List.getD_eq_getElem?_getD, List.getElem?_eq_getElem h]
  rfl

theorem map_getD_opt (f : Option ℚ → Option ℚ) (xs : List (Option ℚ)) (j : ℕ)
    (h : j < xs.length) :
    (xs.map f).getD j none = f (xs.getD j none) := by
  rw [List.getD_eq_getElem?_getD, List.getElem?_map, List.getElem?_eq_getElem h,
    List.getD_eq_getElem?_getD, List.getElem?_eq_getElem h]
  rfl

theorem clampNeg_good (o : Option ℚ) (q : ℚ) (h : clampNeg o = some q) : 0 ≤ q := by
  cases o with
  | none => simp [clampNeg] at h
  | some v =>
      simp only [clampNeg] at h
      by_cases hv : 0 ≤ v
      · rw [if_pos hv] at h; cases h; exact hv
      · rw [if_neg hv] at h; cases h

theorem clampNeg_none (o : Option ℚ) (h : clampNeg o = none) :
    ∀ q, o = some q → q < 0 := by
  intro q hq
  rw [hq] at h
  simp only [clampNeg] at h
  by_cases hv : 0 ≤ q
  · rw [if_pos hv] at h; cases h
  · exact lt_of_not_ge hv

theorem numeric_accessor_facts (p : String × (FullRow → Option ℚ))
    (hp : p ∈ numeric_cols) :
    p.2 dummyFull = none ∧
    (∀ prev cur, p.2 (fStep2 prev cur) = fo (p.2 cur) (p.2 prev)) ∧
    (∀ r : FullRow,
      p.2 ({ r with
              Open := clampNeg r.Open
              High := clampNeg r.High
              Low := clampNeg r.Low
              Close := clampNeg r.Close
              Volume := clampNeg r.Volume }) = clampNeg (p.2 r)) := by
  simp only [numeric_cols, List.mem_cons, List.not_mem_nil, or_false] at hp
  rcases hp with rfl | rfl | rfl | rfl | rfl <;>
    exact ⟨rfl, fun prev cur => rfl, fun r => rfl⟩

theorem sanitize_map (p : String × (FullRow → Option ℚ)) (hp : p ∈ numeric_cols)
    (rows : List FullRow) :
    (sanitize_negatives rows).map p.2 = (rows.map p.2).map clampNeg := by
  obtain ⟨-, -, h3⟩ := numeric_accessor_facts p hp
  rw [sanitize_negatives, List.map_map, List.map_map]
  exact List.map_congr_left fun r _ => h3 r

/-- C2: after the negative-value substitution of lines 61–62 and the
renewed forward fill of line 63, every cell of the five numeric columns
is either a non-negative value, or missing because every earlier cell of
that column in the first-export frame was itself negative or missing
(so no valid value was available to fill from). -/
theorem sanitize_no_negatives (raw : List Row)
    (p : String × (FullRow → Option ℚ)) (hp : p ∈ numeric_cols) (i : ℕ)
    (hi : i < (ffill2 (sanitize_negatives (export1 raw))).length) :
    (∃ q, p.2 ((ffill2 (sanitize_negatives (export1 raw))).getD i dummyFull)
        = some q ∧ 0 ≤ q) ∨
    (p.2 ((ffill2 (sanitize_negatives (export1 raw))).getD i dummyFull) = none ∧
      ∀ j, j ≤ i → ∀ q, p.2 ((export1 raw).getD j dummyFull) = some q → q < 0) := by
  obtain ⟨h0, hstep, -⟩ := numeric_accessor_facts p hp
  have hlenF : (ffill2 (sanitize_negatives (export1 raw))).length
      = (sanitize_negatives (export1 raw)).length :=
    ffill2Aux_length (sanitize_negatives (export1 raw)) dummyFull
  have hlenS : (sanitize_negatives (export1 raw)).length = (export1 raw).length :=
    List.length_map _ _
  have hiE : i < (export1 raw).length := by omega
  have hcol : (ffill2 (sanitize_negatives (export1 raw))).map p.2
      = ffillCol none ((sanitize_negatives (export1 raw)).map p.2) := by
    rw [ffill2, ffill2Aux_map p.2 hstep (sanitize_negatives (export1 raw)) dummyFull, h0]
  have hScol : (sanitize_negatives (export1 raw)).map p.2
      = ((export1 raw).map p.2).map clampNeg := sanitize_map p hp (export1 raw)
  have hv : p.2 ((ffill2 (sanitize_negatives (export1 raw))).getD i dummyFull)
      = ((((export1 raw).map p.2).map clampNeg).take (i + 1)).foldl
          (fun a x => fo x a) none := by
    rw [← map_getD_full p.2 _ i hi, hcol,
      ffillCol_getD _ none i (by rw [List.length_map]; omega), hScol]
  cases hfold : ((((export1 raw).map p.2).map clampNeg).take (i + 1)).foldl
      (fun a x => fo x a) none with
  | some q =>
      left
      refine ⟨q, by rw [hv, hfold], ?_⟩
      refine foldl_fo_good _ none ?_ (by simp) q hfold
      intro x hx q2 hxq
      have hx2 : x ∈ ((export1 raw).map p.2).map clampNeg := List.take_subset _ _ hx
      obtain ⟨y, -, rfl⟩ := List.mem_map.mp hx2
      exact clampNeg_good y q2 hxq
  | none =>
      right
      refine ⟨by rw [hv, hfold], ?_⟩
      intro j hj q hq
      obtain ⟨-, hall⟩ := foldl_fo_none _ none hfold
      have hjE : j < (export1 raw).length := lt_of_le_of_lt hj hiE
      have hjL : j < ((((export1 raw).map p.2).map clampNeg).take (i + 1)).length := by
        simp only [List.length_take, List.length_map]
        omega
      have hLj : ((((export1 raw).map p.2).map clampNeg).take (i + 1)).getD j none
          = clampNeg (((export1 raw).map p.2).getD j none) := by
        rw [List.getD_eq_getElem?_getD, List.getElem?_take, if_pos (by omega : j < i + 1),
          ← List.getD_eq_getElem?_getD]
        exact map_getD_opt clampNeg _ j (by rw [List.length_map]; omega)
      have hnone := hall _ (getD_mem _ j none hjL)
      rw [hLj] at hnone
      have hEj : ((export1 raw).map p.2).getD j none
          = p.2 ((export1 raw).getD j dummyFull) := map_getD_full p.2 _ j hjE
      rw [← hEj] at hq
      exact clampNeg_none _ hnone q hq

set_option maxRecDepth 400000 in
/-- C2 witness: on the test frame at the Low column, row 6 (whose raw
Low was −5 on day 5 but 9 on day 6) satisfies the property. -/
theorem sanitize_no_negatives_witness :
    (∃ q, FullRow.Low ((ffill2 (sanitize_negatives (export1 sample))).getD 6 dummyFull)
        = some q ∧ 0 ≤ q) ∨
    (FullRow.Low ((ffill2 (sanitize_negatives (export1 sample))).getD 6 dummyFull) = none ∧
      ∀ j, j ≤ 6 → ∀ q, FullRow.Low ((export1 sample).getD j dummyFull) = some q → q < 0) :=
  sanitize_no_negatives sample ("Low", FullRow.Low) (by simp [numeric_cols]) 6
    (by have h : (ffill2 (sanitize_negatives (export1 sample))).length = 29 := by
          with_unfolding_all rfl
        omega)

/-! ## The moving averages on a constant series (C6) -/

theorem getD_range_map {α : Type _} (f : ℕ → α) (d : α) (m j : ℕ) (h : j < m) :
    ((List.range m).map f).getD j d = f j := by
  rw [List.getD_eq_getElem?_getD, List.getElem?_map, List.getElem?_range h]
  rfl

theorem getD_replicate {α : Type _} (a d : α) (n j : ℕ) (h : j < n) :
    (List.replicate n a).getD j d = a := by
  rw [List.getD_eq_getElem?_getD, List.getElem?_replicate, if_pos h]
  rfl

theorem filterMap_id_replicate (c : ℚ) (m : ℕ) :
    (List.replicate m (some c)).filterMap id = List.replicate m c := by
  induction m with
  | zero => rfl
  | succ m ih => simp [List.replicate_succ, ih]

theorem sma_const (n : ℕ) (c : ℚ) (i : ℕ) (h2 : 19 ≤ i) (h3 : i < n) :
    (sma_indicator 20 (List.replicate n (some c))).getD i none = some c := by
  rw [sma_indicator, rollingMean, List.length_replicate, getD_range_map _ _ n i h3]
  rw [if_neg (by omega : ¬ i + 1 < 20)]
  have hwin : (List.range 20).map (fun k => (List.replicate n (some c)).getD (i - k) none)
      = List.replicate 20 (some c) := by
    have h1 : (List.range 20).map (fun k => (List.replicate n (some c)).getD (i - k) none)
        = (List.range 20).map (fun _ => some c) :=
      List.map_congr_left fun k hk => getD_replicate (some c) none n (i - k) (by omega)
    rw [h1, List.map_const']
    simp
  rw [hwin]
  rw [if_pos (by simp : (List.replicate 20 (some c)).all Option.isSome = true)]
  rw [filterMap_id_replicate, List.sum_replicate, nsmul_eq_mul]
  norm_num

theorem ewmGo_const (al : ℚ) (minp : ℕ) (c : ℚ) (m : ℕ) :
    ∀ nobs, ewmGo al minp (some c) 1 nobs (List.replicate m (some c)) =
      (List.range m).map (fun j => if minp ≤ nobs + j + 1 then some c else none) := by
  induction m with
  | zero => intro nobs; rfl
  | succ m ih =>
      intro nobs
      rw [List.replicate_succ]
      show (if minp ≤ nobs + 1 then
              some ((1 * (1 - al) * c + al * c) / (1 * (1 - al) + al)) else none) ::
            ewmGo al minp (some ((1 * (1 - al) * c + al * c) / (1 * (1 - al) + al)))
              1 (nobs + 1) (List.replicate m (some c))
          = (List.range (m + 1)).map (fun j => if minp ≤ nobs + j + 1 then some c else none)
      have hval : (1 * (1 - al) * c + al * c) / (1 * (1 - al) + al) = c := by
        have hnum : 1 * (1 - al) * c + al * c = c := by ring
        have hden : 1 * (1 - al) + al = 1 := by ring
        rw [hnum, hden, div_one]
      rw [hval, ih (nobs + 1), List.range_succ_eq_map]
      simp only [List.map_cons, List.map_map]
      congr 1
      refine List.map_congr_left fun a _ => ?_
      have h : nobs + 1 + a + 1 = nobs + (a + 1) + 1 := by omega
      simp only [Function.comp_apply, h]

theorem ema_const (n : ℕ) (c : ℚ) (i : ℕ) (h2 : 19 ≤ i) (h3 : i < n) :
    (ema_indicator 20 (List.replicate n (some c))).getD i none = some c := by
  obtain ⟨m, rfl⟩ : ∃ m, n = m + 1 := ⟨n - 1, by omega⟩
  obtain ⟨j, rfl⟩ : ∃ j, i = j + 1 := ⟨i - 1, by omega⟩
  rw [ema_indicator, ewma, List.replicate_succ]
  show (ewmGo (2 / (20 + 1)) 20 none 1 0 (some c :: List.replicate m (some c))).getD
      (j + 1) none = some c
  have hstep : ewmGo (2 / (20 + 1) : ℚ) 20 none 1 0 (some c :: List.replicate m (some c))
      = (if 20 ≤ 0 + 1 then some c else none) ::
          ewmGo (2 / (20 + 1)) 20 (some c) 1 1 (List.replicate m (some c)) := rfl
  rw [hstep, List.getD_cons_succ, ewmGo_const]
  rw [getD_range_map _ _ m j (by omega)]
  rw [if_pos (by omega : 20 ≤ 1 + j + 1)]

/-- C6: on a constant close series of length at least 20, both SMA_20
(line 41) and EMA_20 (line 42) equal that constant at every position
past the 19-row warm-up. -/
theorem constant_series_sma_ema (n : ℕ) (c : ℚ) (i : ℕ)
    (h1 : 20 ≤ n) (h2 : 19 ≤ i) (h3 : i < n) :
    (sma_indicator 20 (List.replicate n (some c))).getD i none = some c ∧
    (ema_indicator 20 (List.replicate n (some c))).getD i none = some c :=
  ⟨sma_const n c i h2 h3, ema_const n c i h2 h3⟩

/-- C6 witness: a constant close of 7 over 21 days has SMA_20 and EMA_20
equal to 7 at position 20. -/
theorem constant_series_sma_ema_witness :
    (sma_indicator 20 (List.replicate 21 (some (7 : ℚ)))).getD 20 none = some 7 ∧
    (ema_indicator 20 (List.replicate 21 (some (7 : ℚ)))).getD 20 none = some 7 :=
  constant_series_sma_ema 21 7 20 (by norm_num) (by norm_num) (by norm_num)

/-! ## Export ordering and the whole-frame refill (C9, C10) -/

theorem negCell_spec (o : Option ℚ) (h : negCell o = true) :
    ∃ q, o = some q ∧ q < 0 := by
  cases o with
  | none => simp [negCell] at h
  | some q =>
      simp only [negCell, decide_eq_true_eq] at h
      exact ⟨q, rfl, h⟩

set_option maxRecDepth 400000 in
/-- C9: the frame written to the first CSV at line 53 predates the
cleaning of lines 56–69: on the test frame it still holds a negative Low
and warm-up rows with a missing SMA_20, while the second exported frame
(line 69) holds neither; the two exports differ, and only the second one
is the cleaned frame.  In the model each export is the value of the
frame at its write point, so later steps cannot alter it. -/
theorem first_export_precedes_cleaning :
    (∃ r ∈ export1 sample, ∃ q, r.Low = some q ∧ q < 0) ∧
    (∃ r ∈ export1 sample, r.SMA_20 = none) ∧
    (∀ r ∈ export2 sample, ∀ q, r.Low = some q → 0 ≤ q) ∧
    (∀ r ∈ export2 sample, r.SMA_20 ≠ none) ∧
    export1 sample ≠ export2 sample ∧
    export2 sample = drop_incomplete (ffill2 (sanitize_negatives (export1 sample))) := by
  have h1 : (export1 sample).any (fun r => negCell r.Low) = true := by
    with_unfolding_all rfl
  have h2 : (export1 sample).any (fun r => r.SMA_20.isNone) = true := by
    with_unfolding_all rfl
  have h3 : (export2 sample).all
      (fun r => match r.Low with | some q => decide (0 ≤ q) | none => true) = true := by
    with_unfolding_all rfl
  have h4 : (export2 sample).all (fun r => r.SMA_20.isSome) = true := by
    with_unfolding_all rfl
  have hl1 : (export1 sample).length = 29 := by with_unfolding_all rfl
  have hl2 : (export2 sample).length = 4 := by with_unfolding_all rfl
  refine ⟨?_, ?_, ?_, ?_, ?_, rfl⟩
  · obtain ⟨r, hr, hb⟩ := List.any_eq_true.mp h1
    exact ⟨r, hr, negCell_spec r.Low hb⟩
  · obtain ⟨r, hr, hb⟩ := List.any_eq_true.mp h2
    exact ⟨r, hr, Option.isNone_iff_eq_none.mp hb⟩
  · intro r hr q hq
    have hb := List.all_eq_true.mp h3 r hr
    rw [hq] at hb
    simpa using hb
  · intro r hr
    have hb := List.all_eq_true.mp h4 r hr
    exact Option.isSome_iff_ne_none.mp hb
  · intro he
    rw [he, hl2] at hl1
    exact absurd hl1 (by norm_num)

set_option maxRecDepth 400000 in
/-- C10: line 63's `ffill` runs over every column, including the derived
ones.  On the test frame, day 27's Return (a 0/0 `pct_change` on two
consecutive zero closes) is missing in the first-export frame even
though its other indicators are present past warm-up, the refill copies
day 26's Return (−1) into it, and the row consequently survives line
65's `dropna` and reaches the cleaned export. -/
theorem whole_frame_ffill_rescues_row :
    ((export1 sample).getD 27 dummyFull).Return = none ∧
    ((export1 sample).getD 26 dummyFull).Return = some (-1) ∧
    ((export1 sample).getD 27 dummyFull).SMA_20.isSome = true ∧
    ((export1 sample).getD 27 dummyFull).MACD.isSome = true ∧
    ((ffill2 (sanitize_negatives (export1 sample))).getD 27 dummyFull).Return = some (-1) ∧
    (∃ r ∈ export2 sample, r.Date = 27 ∧ r.Return = some (-1)) := by
  have h1 : ((export1 sample).getD 27 dummyFull).Return = none := by
    with_unfolding_all rfl
  have h2 : ((export1 sample).getD 26 dummyFull).Return = some (-1) := by
    with_unfolding_all rfl
  have h3 : ((export1 sample).getD 27 dummyFull).SMA_20.isSome = true := by
    with_unfolding_all rfl
  have h4 : ((export1 sample).getD 27 dummyFull).MACD.isSome = true := by
    with_unfolding_all rfl
  have h5 : ((ffill2 (sanitize_negatives (export1 sample))).getD 27 dummyFull).Return
      = some (-1) := by
    with_unfolding_all rfl
  have h6 : (export2 sample).any
      (fun r => r.Date == 27 && r.Return == some (-1)) = true := by
    with_unfolding_all rfl
  refine ⟨h1, h2, h3, h4, h5, ?_⟩
  obtain ⟨r, hr, hb⟩ := List.any_eq_true.mp h6
  simp only [Bool.and_eq_true, beq_iff_eq] at hb
  exact ⟨r, hr, hb.1, hb.2⟩
